import Mathlib

/-!
Verification development for the YouTube-to-MP3 converter web app
(`src/app.py`).  Strings are modelled as `List Char`; the Python regex
classes `\w` and `\s` are modelled over their ASCII behaviour, which is
all the specification's claims exercise.
-/

namespace YtMp3

/-- ASCII model of Python's regex class `\w` (alphanumeric or underscore). -/
def isWordChar (c : Char) : Bool := c.isAlphanum || c == '_'

/-- ASCII model of Python's regex class `\s` (whitespace). -/
def isSpaceChar (c : Char) : Bool :=
  c == ' ' || c == '\t' || c == '\n' || c == '\x0b' || c == '\x0c' || c == '\r'

/-- Characters kept by `re.sub(r'[^\w\s-]', '', ...)` in `clean_filename`
(app.py line 28): word characters, whitespace, and the hyphen. -/
def keepChar (c : Char) : Bool := isWordChar c || isSpaceChar c || c == '-'

/-- Characters matched by the video-id class `[\w-]` of the URL patterns
(app.py lines 49-52). -/
def isWordDash (c : Char) : Bool := isWordChar c || c == '-'

/-- `re.sub(r'[^\w\s-]', '', filename)` (app.py line 28): delete every
character outside the kept class. -/
def subRemove (l : List Char) : List Char := l.filter keepChar

/-- Engine of `re.sub(r'\s+', ' ', ...)`: scan left to right; the first
character of each maximal whitespace run is replaced by a single `' '` and
the rest of the run is dropped (the flag records whether we are inside a
run already replaced). -/
def collapseAux : Bool → List Char → List Char
  | _, [] => []
  | inRun, c :: rest =>
    if isSpaceChar c then
      if inRun then collapseAux true rest
      else ' ' :: collapseAux true rest
    else c :: collapseAux false rest

/-- `re.sub(r'\s+', ' ', cleaned)` (app.py line 30): replace every maximal
whitespace run by one space. -/
def subSpaces (l : List Char) : List Char := collapseAux false l

/-- Left half of Python `str.strip()`: drop leading whitespace. -/
def lstrip (l : List Char) : List Char := l.dropWhile isSpaceChar

/-- Right half of Python `str.strip()`: drop trailing whitespace. -/
def rstrip (l : List Char) : List Char := (l.reverse.dropWhile isSpaceChar).reverse

/-- Python `str.strip()` on the default whitespace set. -/
def pyStrip (l : List Char) : List Char := rstrip (lstrip l)

/-- `clean_filename` (app.py lines 17-31): remove characters outside
`{alphanumeric, whitespace, hyphen, underscore}`, collapse whitespace runs
to one space, then strip. -/
def clean_filename (l : List Char) : List Char := pyStrip (subSpaces (subRemove l))

/-- ASCII model of Python `str.lower()` (used at app.py lines 136 and 146). -/
def pyLower (l : List Char) : List Char := l.map Char.toLower

/-- Does `s` start with `t`?  (Helper for substring search.) -/
def beginsWith : List Char → List Char → Bool
  | _, [] => true
  | [], _ :: _ => false
  | c :: s, d :: t => c == d && beginsWith s t

/-- Python's substring test `t in s`. -/
def containsSub (s t : List Char) : Bool :=
  if beginsWith s t then true
  else
    match s with
    | [] => false
    | _ :: s' => containsSub s' t

/-- Does `s`, at its start, match the regex `lit[\w-]+` (a literal followed
by at least one word-or-hyphen character)? -/
def matchesHere : List Char → List Char → Bool
  | [], c :: _ => isWordDash c
  | [], [] => false
  | _ :: _, [] => false
  | d :: lit, c :: s => d == c && matchesHere lit s

/-- Unanchored `re.search` for the pattern `lit[\w-]+`: try every start
position of `s` (app.py line 56; each of the four patterns at lines 49-52
is a literal followed by `[\w-]+`). -/
def searchPat (lit : List Char) (s : List Char) : Bool :=
  if matchesHere lit s then true
  else
    match s with
    | [] => false
    | _ :: s' => searchPat lit s'

/-- `validate_youtube_url` (app.py lines 33-59): host-fragment check, then
the four accepted path shapes tried in order by unanchored search.  All
pattern branches return `(True, "Valid")`, so the loop is an if-chain. -/
def validate_youtube_url (url : List Char) : Bool × List Char :=
  if !containsSub url ("youtube.com".toList) && !containsSub url ("youtu.be".toList) then
    (false, "Not a YouTube URL".toList)
  else if searchPat ("youtube.com/watch?v=".toList) url then (true, "Valid".toList)
  else if searchPat ("youtu.be/".toList) url then (true, "Valid".toList)
  else if searchPat ("youtube.com/embed/".toList) url then (true, "Valid".toList)
  else if searchPat ("youtube.com/v/".toList) url then (true, "Valid".toList)
  else (false, "Invalid YouTube URL format".toList)

/-- Video metadata returned by a successful `extract_info`; only the
`title` key is consulted (`info.get('title', 'video')`, app.py line 110). -/
structure Info where
  title? : Option (List Char)
deriving DecidableEq

/-- User-facing message of the unavailable/private category (app.py line 135). -/
def msgUnavailable : List Char :=
  "❌ Error: Video is unavailable, private, or deleted. Try a different video.".toList

/-- User-facing message of the age-restricted category (app.py line 137). -/
def msgAge : List Char :=
  "❌ Error: Age-restricted video. Cannot download without authentication.".toList

/-- User-facing message of the region-restricted category (app.py line 139). -/
def msgRegion : List Char :=
  "❌ Error: Video not available in this region or on this platform.".toList

/-- User-facing message of the malformed-URL category (app.py line 141). -/
def msgBadUrl : List Char :=
  "❌ Error: Invalid YouTube URL. Make sure it's a valid YouTube link.".toList

/-- User-facing message of the access-forbidden category (app.py line 143). -/
def msgForbidden : List Char :=
  "❌ Error: Access forbidden. YouTube is blocking this request. Try updating yt-dlp or use a different video.".toList

/-- User-facing message of the rate-limited category (app.py line 145). -/
def msgTooMany : List Char :=
  "❌ Error: Too many requests. Please wait a few minutes and try again.".toList

/-- User-facing message of the network-failure category (app.py line 147). -/
def msgNetwork : List Char :=
  "❌ Error: Network connection issue. Check your internet.".toList

/-- Unclassified fallback: `f"❌ Error: {error_msg[:200]}"` (app.py line 149). -/
def msgFallback (e : List Char) : List Char := "❌ Error: ".toList ++ e.take 200

/-- Failure message when the converted file is missing (app.py line 128). -/
def msgNotFound : List Char :=
  "File was downloaded but not found in expected location".toList

/-- The `except` branch of `download_youtube_audio` (app.py lines 130-149):
substring patterns over the error text tried in a fixed order. -/
def classify_error (e : List Char) : List Char :=
  if containsSub e ("Video unavailable".toList)
     || containsSub e ("This video is unavailable".toList) then msgUnavailable
  else if containsSub e ("Sign in to confirm your age".toList)
     || containsSub (pyLower e) ("age".toList) then msgAge
  else if containsSub e ("This video is not available".toList) then msgRegion
  else if containsSub e ("Invalid URL".toList)
     || containsSub e ("Unsupported URL".toList) then msgBadUrl
  else if containsSub e ("HTTP Error 403".toList)
     || containsSub e ("Forbidden".toList) then msgForbidden
  else if containsSub e ("HTTP Error 429".toList) then msgTooMany
  else if containsSub (pyLower e) ("network".toList)
     || containsSub e ("Connection".toList) then msgNetwork
  else msgFallback e

/-- Outcomes of the two external yt-dlp calls made by
`download_youtube_audio`, and the filesystem's answer to the existence
check: `extract_info(url, download=False)` (app.py line 109) either raises
(`Except.error` carries `str(e)`) or returns metadata;
`ydl_download.download([url])` (line 120) either raises or succeeds;
`mp3_file.exists()` (line 125) per path. -/
structure ExtWorld where
  probe : Except (List Char) Info
  convert : Except (List Char) Unit
  fileExists : List Char → Bool

/-- `output_path / f"{clean_title}.mp3"` (app.py line 123). -/
def mp3Path (output_path : List Char) (clean_title : List Char) : List Char :=
  output_path ++ '/' :: (clean_title ++ ".mp3".toList)

/-- `download_youtube_audio` (app.py lines 62-149): probe, sanitize the
title, convert, check the output file; any exception is classified. -/
def download_youtube_audio (w : ExtWorld) (output_path : List Char) :
    Bool × List Char × Option (List Char) :=
  match w.probe with
  | .error e => (false, classify_error e, none)
  | .ok info =>
    let video_title := info.title?.getD ("video".toList)
    let clean_title := clean_filename video_title
    match w.convert with
    | .error e => (false, classify_error e, none)
    | .ok _ =>
      let mp3_file := mp3Path output_path clean_title
      if w.fileExists mp3_file then
        (true, "Successfully converted: ".toList ++ clean_title, some mp3_file)
      else
        (false, msgNotFound, none)

/-- `Path(filepath).name` (app.py line 252): the component after the last
path separator. -/
def fileName (p : List Char) : List Char :=
  (p.reverse.takeWhile (fun c => !(c == '/'))).reverse

/-- The two kinds of external yt-dlp calls a request can make. -/
inductive ExtCall
  | probe
  | convert
deriving DecidableEq

/-- External calls made by one run of `download_youtube_audio`:
`extract_info` always runs (app.py line 109); `download` runs only if the
probe did not raise (line 120).  A raising `download` still counts as a
call. -/
def download_calls (w : ExtWorld) : List ExtCall :=
  match w.probe with
  | .error _ => [ExtCall.probe]
  | .ok _ => [ExtCall.probe, ExtCall.convert]

/-- External state seen by one button press of `main`: the preliminary
probe of app.py line 215 (`.ok none` models a falsy `info`, checked at
line 216) plus the world `download_youtube_audio` runs in. -/
structure AppWorld where
  mainProbe : Except (List Char) (Option Info)
  dl : ExtWorld

/-- External calls made by one button press of `main` (app.py lines
183-241): nothing before the empty-input and validation gates pass; then
the preliminary `extract_info` (line 215), whose failure or falsy result
returns early; then the calls of `download_youtube_audio` (line 237). -/
def main_calls (url : List Char) (w : AppWorld) : List ExtCall :=
  if url = [] then []
  else if (validate_youtube_url url).1 = false then []
  else
    match w.mainProbe with
    | .error _ => [ExtCall.probe]
    | .ok none => [ExtCall.probe]
    | .ok (some _) => ExtCall.probe :: download_calls w.dl

/-- Right fold computing the maximal whitespace-separated words: returns
the (possibly empty) word the list starts with and the words after it. -/
def wordsCore : List Char → List Char × List (List Char)
  | [] => ([], [])
  | c :: rest =>
    let p := wordsCore rest
    if isSpaceChar c then ([], if p.1 = [] then p.2 else p.1 :: p.2)
    else (c :: p.1, p.2)

/-- The maximal whitespace-separated words of a string, in order. -/
def wordsOf (l : List Char) : List (List Char) :=
  if (wordsCore l).1 = [] then (wordsCore l).2 else (wordsCore l).1 :: (wordsCore l).2

/-- Join words with a single interior space. -/
def joinSpace : List (List Char) → List Char
  | [] => []
  | [w] => w
  | w :: ws => w ++ ' ' :: joinSpace ws

/-- Sanitization exactly as the claim words it: remove the characters
outside the kept class and replace every maximal whitespace run — leading
and trailing ones included — by a single space, with no final strip. -/
def cleanAsClaimed (l : List Char) : List Char := subSpaces (subRemove l)

/-- Sanitization as the amended claim words it: remove the characters
outside the kept class, then join the maximal whitespace-separated words
with single spaces (equivalently: collapse interior whitespace runs to one
space and delete leading and trailing whitespace). -/
def cleanSpec (l : List Char) : List Char := joinSpace (wordsOf (subRemove l))

/-- No two adjacent space characters. -/
def noDoubleSpace : List Char → Bool
  | c :: d :: rest => !(c == ' ' && d == ' ') && noDoubleSpace (d :: rest)
  | _ => true

/-- The output shape claimed for `clean_filename`: only word characters,
hyphens and single interior spaces, with no leading or trailing
whitespace. -/
def goodOutput (l : List Char) : Bool :=
  l.all (fun c => isWordDash c || c == ' ')
  && noDoubleSpace l
  && !(beginsWith l [' '])
  && !(beginsWith l.reverse [' '])

theorem beginsWith_append (t b : List Char) : beginsWith (t ++ b) t = true := by
  induction t with
  | nil => cases b <;> rfl
  | cons c t ih => simp [beginsWith, ih]

theorem containsSub_of_append (a t b : List Char) :
    containsSub (a ++ t ++ b) t = true := by
  induction a with
  | nil =>
    simp only [List.nil_append]
    unfold containsSub
    rw [beginsWith_append]
    rfl
  | cons c a ih =>
    simp only [List.cons_append]
    unfold containsSub
    split
    · rfl
    · exact ih

theorem matchesHere_append (lit : List Char) (c : Char) (b : List Char)
    (hc : isWordDash c = true) : matchesHere lit (lit ++ c :: b) = true := by
  induction lit with
  | nil => simpa [matchesHere] using hc
  | cons d lit ih => simp [matchesHere, ih]

theorem searchPat_of_append (a lit : List Char) (c : Char) (b : List Char)
    (hc : isWordDash c = true) : searchPat lit (a ++ lit ++ c :: b) = true := by
  induction a with
  | nil =>
    simp only [List.nil_append]
    unfold searchPat
    rw [matchesHere_append lit c b hc]
    rfl
  | cons d a ih =>
    simp only [List.cons_append]
    unfold searchPat
    split
    · rfl
    · exact ih

theorem validate_of_host_and_search (url : List Char)
    (hhost : containsSub url ("youtube.com".toList) = true
           ∨ containsSub url ("youtu.be".toList) = true)
    (hs : searchPat ("youtube.com/watch?v=".toList) url = true
        ∨ searchPat ("youtu.be/".toList) url = true
        ∨ searchPat ("youtube.com/embed/".toList) url = true
        ∨ searchPat ("youtube.com/v/".toList) url = true) :
    validate_youtube_url url = (true, "Valid".toList) := by
  unfold validate_youtube_url
  have hcond : (!containsSub url ("youtube.com".toList)
      && !containsSub url ("youtu.be".toList)) = false := by
    rcases hhost with h | h
    · rw [h]; rfl
    · rw [h]; simp only [Bool.not_true, Bool.and_false]
  rw [hcond]
  rw [if_neg (by simp)]
  by_cases h1 : searchPat ("youtube.com/watch?v=".toList) url = true
  · rw [if_pos h1]
  · rw [if_neg h1]
    by_cases h2 : searchPat ("youtu.be/".toList) url = true
    · rw [if_pos h2]
    · rw [if_neg h2]
      by_cases h3 : searchPat ("youtube.com/embed/".toList) url = true
      · rw [if_pos h3]
      · rw [if_neg h3]
        by_cases h4 : searchPat ("youtube.com/v/".toList) url = true
        · rw [if_pos h4]
        · rcases hs with h | h | h | h
          · exact absurd h h1
          · exact absurd h h2
          · exact absurd h h3
          · exact absurd h h4

theorem host_in_shape (pre tail cid host : List Char) :
    containsSub (pre ++ (host ++ tail) ++ cid) host = true := by
  have h := containsSub_of_append pre host (tail ++ cid)
  simpa only [List.append_assoc] using h

/-- C5: `validate_youtube_url` reports every string that contains neither
the substring "youtube.com" nor the substring "youtu.be" as invalid with
reason "Not a YouTube URL" (app.py lines 44-45). -/
theorem validate_rejects_non_youtube (url : List Char)
    (h1 : containsSub url ("youtube.com".toList) = false)
    (h2 : containsSub url ("youtu.be".toList) = false) :
    validate_youtube_url url = (false, "Not a YouTube URL".toList) := by
  unfold validate_youtube_url
  rw [h1, h2]
  rfl

/-- Witness for C5 at the spec's example input "not a url". -/
theorem validate_rejects_non_youtube_witness :
    validate_youtube_url ("not a url".toList) = (false, "Not a YouTube URL".toList) :=
  validate_rejects_non_youtube ("not a url".toList) (by decide) (by decide)

/-- C6: every URL of one of the four accepted shapes (any prefix, then
`youtube.com/watch?v=`, `youtu.be/`, `youtube.com/embed/` or
`youtube.com/v/`) followed by a non-empty id of word-or-hyphen characters
is reported valid by `validate_youtube_url` (app.py lines 48-59). -/
theorem validate_accepts_shapes (pre id : List Char) (hne : id ≠ [])
    (hid : ∀ c ∈ id, isWordDash c = true) :
    validate_youtube_url (pre ++ "youtube.com/watch?v=".toList ++ id)
      = (true, "Valid".toList)
  ∧ validate_youtube_url (pre ++ "youtu.be/".toList ++ id)
      = (true, "Valid".toList)
  ∧ validate_youtube_url (pre ++ "youtube.com/embed/".toList ++ id)
      = (true, "Valid".toList)
  ∧ validate_youtube_url (pre ++ "youtube.com/v/".toList ++ id)
      = (true, "Valid".toList) := by
  obtain ⟨c, id', rfl⟩ : ∃ c id', id = c :: id' := by
    cases id with
    | nil => exact absurd rfl hne
    | cons c id' => exact ⟨c, id', rfl⟩
  have hc : isWordDash c = true := hid c (List.mem_cons_self c id')
  refine ⟨?_, ?_, ?_, ?_⟩
  · apply validate_of_host_and_search
    · left
      rw [show ("youtube.com/watch?v=".toList : List Char)
            = "youtube.com".toList ++ "/watch?v=".toList by decide]
      exact host_in_shape pre _ _ _
    · exact Or.inl (searchPat_of_append pre _ c id' hc)
  · apply validate_of_host_and_search
    · right
      rw [show ("youtu.be/".toList : List Char)
            = "youtu.be".toList ++ "/".toList by decide]
      exact host_in_shape pre _ _ _
    · exact Or.inr (Or.inl (searchPat_of_append pre _ c id' hc))
  · apply validate_of_host_and_search
    · left
      rw [show ("youtube.com/embed/".toList : List Char)
            = "youtube.com".toList ++ "/embed/".toList by decide]
      exact host_in_shape pre _ _ _
    · exact Or.inr (Or.inr (Or.inl (searchPat_of_append pre _ c id' hc)))
  · apply validate_of_host_and_search
    · left
      rw [show ("youtube.com/v/".toList : List Char)
            = "youtube.com".toList ++ "/v/".toList by decide]
      exact host_in_shape pre _ _ _
    · exact Or.inr (Or.inr (Or.inr (searchPat_of_append pre _ c id' hc)))

/-- Witness for C6 at the spec's example URL. -/
theorem validate_accepts_shapes_witness :
    validate_youtube_url
      ("https://www.".toList ++ "youtube.com/watch?v=".toList ++ "dQw4w9WgXcQ".toList)
      = (true, "Valid".toList) :=
  (validate_accepts_shapes ("https://www.".toList) ("dQw4w9WgXcQ".toList)
    (by decide) (by decide)).1

/-- C8: the four URL patterns are matched by unanchored search, so any
string with "youtube.com/watch?v=x" somewhere inside it — whatever comes
before or after — is reported valid by `validate_youtube_url`, even when
the string as a whole is not a YouTube address (app.py lines 55-57). -/
theorem validate_unanchored_substring (pre post : List Char) :
    validate_youtube_url (pre ++ "youtube.com/watch?v=x".toList ++ post)
      = (true, "Valid".toList) := by
  apply validate_of_host_and_search
  · left
    rw [show ("youtube.com/watch?v=x".toList : List Char)
          = "youtube.com".toList ++ "/watch?v=x".toList by decide]
    exact host_in_shape pre _ _ _
  · left
    rw [show ("youtube.com/watch?v=x".toList : List Char)
          = "youtube.com/watch?v=".toList ++ ['x'] by decide]
    have h := searchPat_of_append pre ("youtube.com/watch?v=".toList) 'x' post (by decide)
    simpa only [List.append_assoc, List.singleton_append] using h

/-- C2: any probe or convert exception whose text contains
"Video unavailable" or "This video is unavailable" makes
`download_youtube_audio` return the unavailable-or-private category
(app.py lines 130-135). -/
theorem download_unavailable_category (w : ExtWorld) (out e : List Char)
    (he : containsSub e ("Video unavailable".toList) = true
        ∨ containsSub e ("This video is unavailable".toList) = true) :
    (w.probe = .error e →
       download_youtube_audio w out = (false, msgUnavailable, none))
  ∧ (∀ info : Info, w.probe = .ok info → w.convert = .error e →
       download_youtube_audio w out = (false, msgUnavailable, none)) := by
  have hcl : classify_error e = msgUnavailable := by
    unfold classify_error
    rcases he with h | h
    · rw [h]; rfl
    · rw [h, Bool.or_true]
      rfl
  constructor
  · intro hp
    unfold download_youtube_audio
    rw [hp]
    show (false, classify_error e, none) = (false, msgUnavailable, none)
    rw [hcl]
  · intro info hp hc
    unfold download_youtube_audio
    rw [hp, hc]
    show (false, classify_error e, none) = (false, msgUnavailable, none)
    rw [hcl]

/-- Witness for C2: a probe raising "ERROR: Video unavailable". -/
theorem download_unavailable_category_witness :
    download_youtube_audio
      ⟨.error ("ERROR: Video unavailable".toList), .ok (), fun _ => false⟩ []
      = (false, msgUnavailable, none) :=
  (download_unavailable_category
    ⟨.error ("ERROR: Video unavailable".toList), .ok (), fun _ => false⟩ []
    ("ERROR: Video unavailable".toList) (Or.inl (by decide))).1 rfl

/-- C10: the age-restricted branch matches any error text whose
lowercasing contains "age" (app.py line 136), so the error
"ERROR: unable to fetch webpage" — unrelated to age restriction and
matching none of the earlier patterns — is classified age-restricted
rather than falling through to the truncated fallback. -/
theorem classify_age_over_webpage :
    download_youtube_audio
      ⟨.error ("ERROR: unable to fetch webpage".toList), .ok (), fun _ => false⟩ []
      = (false, msgAge, none)
  ∧ containsSub ("ERROR: unable to fetch webpage".toList)
      ("Video unavailable".toList) = false
  ∧ containsSub ("ERROR: unable to fetch webpage".toList)
      ("This video is unavailable".toList) = false
  ∧ containsSub ("ERROR: unable to fetch webpage".toList)
      ("Sign in to confirm your age".toList) = false
  ∧ msgAge ≠ msgFallback ("ERROR: unable to fetch webpage".toList) := by decide

/-- C7 is false as stated: on an all-success request, `main` makes its own
preliminary probe (app.py line 215) before `download_youtube_audio` makes
its probe and its convert call, so three external calls happen, not two. -/
theorem main_calls_counterexample :
    main_calls ("https://www.youtube.com/watch?v=dQw4w9WgXcQ".toList)
      ⟨.ok (some ⟨some ("Song".toList)⟩),
       ⟨.ok ⟨some ("Song".toList)⟩, .ok (), fun _ => true⟩⟩
      = [ExtCall.probe, ExtCall.probe, ExtCall.convert]
  ∧ [ExtCall.probe, ExtCall.probe, ExtCall.convert]
      ≠ [ExtCall.probe, ExtCall.convert] := by decide

/-- C7 amended: a validated request whose preliminary probe and inner
probe both succeed performs exactly three external calls in order —
`main`'s metadata probe, then `download_youtube_audio`'s metadata probe,
then one download-and-convert call; `download_youtube_audio` itself
performs exactly the two calls probe-then-convert. -/
theorem main_three_calls (url : List Char) (w : AppWorld) (i info : Info)
    (hv : (validate_youtube_url url).1 = true)
    (hm : w.mainProbe = .ok (some i)) (hd : w.dl.probe = .ok info) :
    main_calls url w = [ExtCall.probe, ExtCall.probe, ExtCall.convert]
  ∧ download_calls w.dl = [ExtCall.probe, ExtCall.convert] := by
  have hne : url ≠ [] := by
    intro h
    rw [h] at hv
    revert hv
    decide
  have hdc : download_calls w.dl = [ExtCall.probe, ExtCall.convert] := by
    unfold download_calls
    rw [hd]
  refine ⟨?_, hdc⟩
  unfold main_calls
  rw [if_neg hne, hv, if_neg (by simp), hm]
  show ExtCall.probe :: download_calls w.dl = _
  rw [hdc]

/-- Witness for the amended C7 on an all-success world. -/
theorem main_three_calls_witness :
    main_calls ("https://www.youtube.com/watch?v=dQw4w9WgXcQ".toList)
      ⟨.ok (some ⟨some ("Song".toList)⟩),
       ⟨.ok ⟨some ("Song".toList)⟩, .ok (), fun _ => true⟩⟩
      = [ExtCall.probe, ExtCall.probe, ExtCall.convert]
  ∧ download_calls ⟨.ok ⟨some ("Song".toList)⟩, .ok (), fun _ => true⟩
      = [ExtCall.probe, ExtCall.convert] :=
  main_three_calls ("https://www.youtube.com/watch?v=dQw4w9WgXcQ".toList)
    ⟨.ok (some ⟨some ("Song".toList)⟩),
     ⟨.ok ⟨some ("Song".toList)⟩, .ok (), fun _ => true⟩⟩
    ⟨some ("Song".toList)⟩ ⟨some ("Song".toList)⟩ (by decide) rfl rfl

theorem mem_collapseAux (l : List Char) : ∀ (b : Bool) (c : Char),
    c ∈ collapseAux b l → c = ' ' ∨ c ∈ l := by
  induction l with
  | nil => intro b c h; cases h
  | cons d rest ih =>
    intro b c h
    by_cases hd : isSpaceChar d = true
    · rw [collapseAux, if_pos hd] at h
      cases b with
      | true =>
        rcases ih true c h with h' | h'
        · exact Or.inl h'
        · exact Or.inr (List.mem_cons_of_mem d h')
      | false =>
        rcases List.mem_cons.mp h with h' | h'
        · exact Or.inl h'
        · rcases ih true c h' with h'' | h''
          · exact Or.inl h''
          · exact Or.inr (List.mem_cons_of_mem d h'')
    · rw [collapseAux, if_neg hd] at h
      rcases List.mem_cons.mp h with h' | h'
      · exact Or.inr (h' ▸ List.mem_cons_self d rest)
      · rcases ih false c h' with h'' | h''
        · exact Or.inl h''
        · exact Or.inr (List.mem_cons_of_mem d h'')

theorem mem_rstrip {c : Char} {l : List Char} (h : c ∈ rstrip l) : c ∈ l := by
  unfold rstrip at h
  rw [List.mem_reverse] at h
  have h2 := List.dropWhile_subset isSpaceChar h
  rwa [List.mem_reverse] at h2

theorem mem_pyStrip {c : Char} {l : List Char} (h : c ∈ pyStrip l) : c ∈ l :=
  List.dropWhile_subset isSpaceChar (mem_rstrip h)

theorem mem_clean_filename (t : List Char) (c : Char)
    (h : c ∈ clean_filename t) : keepChar c = true ∨ c = ' ' := by
  unfold clean_filename at h
  have h1 : c ∈ subSpaces (subRemove t) := mem_pyStrip h
  rcases mem_collapseAux (subRemove t) false c h1 with h2 | h2
  · exact Or.inr h2
  · exact Or.inl (List.of_mem_filter h2)

theorem clean_no_slash (t : List Char) (c : Char)
    (h : c ∈ clean_filename t) : (c == '/') = false := by
  cases hb : c == '/'
  · rfl
  · exfalso
    have hc : c = '/' := eq_of_beq hb
    subst hc
    rcases mem_clean_filename t '/' h with h' | h'
    · revert h'; decide
    · revert h'; decide

theorem fileName_append (dir base : List Char)
    (hb : ∀ c ∈ base, (c == '/') = false) :
    fileName (dir ++ '/' :: base) = base := by
  unfold fileName
  rw [List.reverse_append, List.reverse_cons, List.append_assoc]
  have h1 : ∀ a ∈ base.reverse, (fun c => !(c == '/')) a = true := by
    intro a ha
    rw [List.mem_reverse] at ha
    show (!(a == '/')) = true
    rw [hb a ha]
    rfl
  rw [List.takeWhile_append_of_pos h1, List.singleton_append,
    List.takeWhile_cons_of_neg (by decide), List.append_nil,
    List.reverse_reverse]

/-- C1: when the probe yields a title, the convert call succeeds and the
expected output file exists, `download_youtube_audio` returns success
with a file path whose filename is `clean_filename` of the title followed
by ".mp3"; when the expected file is missing it returns failure with a
null file path (app.py lines 107-128). -/
theorem download_success_filename (w : ExtWorld) (out t : List Char)
    (hp : w.probe = .ok ⟨some t⟩) (hc : w.convert = .ok ()) :
    (w.fileExists (mp3Path out (clean_filename t)) = true →
       download_youtube_audio w out
         = (true, "Successfully converted: ".toList ++ clean_filename t,
            some (mp3Path out (clean_filename t)))
     ∧ fileName (mp3Path out (clean_filename t))
         = clean_filename t ++ ".mp3".toList)
  ∧ (w.fileExists (mp3Path out (clean_filename t)) = false →
       download_youtube_audio w out = (false, msgNotFound, none)) := by
  have hfn : fileName (mp3Path out (clean_filename t))
      = clean_filename t ++ ".mp3".toList := by
    unfold mp3Path
    apply fileName_append
    intro c hcmem
    rcases List.mem_append.mp hcmem with h | h
    · exact clean_no_slash t c h
    · have hall : ∀ c ∈ (".mp3".toList : List Char), (c == '/') = false := by decide
      exact hall c h
  constructor
  · intro hex
    refine ⟨?_, hfn⟩
    unfold download_youtube_audio
    rw [hp, hc]
    show (if w.fileExists (mp3Path out (clean_filename t)) = true
          then (true, "Successfully converted: ".toList ++ clean_filename t,
                some (mp3Path out (clean_filename t)))
          else (false, msgNotFound, none)) = _
    rw [if_pos hex]
  · intro hex
    unfold download_youtube_audio
    rw [hp, hc]
    show (if w.fileExists (mp3Path out (clean_filename t)) = true
          then (true, "Successfully converted: ".toList ++ clean_filename t,
                some (mp3Path out (clean_filename t)))
          else (false, msgNotFound, none)) = _
    rw [if_neg (by rw [hex]; exact Bool.false_ne_true)]

/-- Witness for C1 on a concrete title with punctuation. -/
theorem download_success_filename_witness :
    download_youtube_audio
      ⟨.ok ⟨some ("My Song: Live/2024?".toList)⟩, .ok (), fun _ => true⟩
      ("downloads".toList)
      = (true, "Successfully converted: ".toList
               ++ clean_filename ("My Song: Live/2024?".toList),
         some (mp3Path ("downloads".toList)
               (clean_filename ("My Song: Live/2024?".toList))))
  ∧ fileName (mp3Path ("downloads".toList)
      (clean_filename ("My Song: Live/2024?".toList)))
      = clean_filename ("My Song: Live/2024?".toList) ++ ".mp3".toList :=
  (download_success_filename
    ⟨.ok ⟨some ("My Song: Live/2024?".toList)⟩, .ok (), fun _ => true⟩
    ("downloads".toList) ("My Song: Live/2024?".toList) rfl rfl).1 rfl

theorem bool_eq_false {b : Bool} (h : ¬(b = true)) : b = false := by
  cases b
  · rfl
  · exact absurd rfl h

theorem collapseAux_space_true {c : Char} (rest : List Char)
    (h : isSpaceChar c = true) :
    collapseAux true (c :: rest) = collapseAux true rest := by
  simp only [collapseAux, if_pos h, if_pos rfl]
  rw [if_pos trivial]

theorem collapseAux_space_false {c : Char} (rest : List Char)
    (h : isSpaceChar c = true) :
    collapseAux false (c :: rest) = ' ' :: collapseAux true rest := by
  simp only [collapseAux, if_pos h]
  rw [if_neg Bool.false_ne_true]

theorem collapseAux_nonspace (b : Bool) {c : Char} (rest : List Char)
    (h : isSpaceChar c = false) :
    collapseAux b (c :: rest) = c :: collapseAux false rest := by
  simp only [collapseAux]
  rw [if_neg (by rw [h]; exact Bool.false_ne_true)]

theorem collapseAux_true_drop (l : List Char) :
    collapseAux true l = collapseAux false (l.dropWhile isSpaceChar) := by
  induction l with
  | nil => rfl
  | cons c rest ih =>
    by_cases h : isSpaceChar c = true
    · rw [collapseAux_space_true rest h, ih, List.dropWhile_cons_of_pos h]
    · have hb := bool_eq_false h
      rw [List.dropWhile_cons_of_neg h, collapseAux_nonspace true rest hb,
        collapseAux_nonspace false rest hb]

theorem collapse_split (l : List Char) :
    collapseAux false l
      = l.takeWhile (fun d => !isSpaceChar d)
        ++ collapseAux false (l.dropWhile (fun d => !isSpaceChar d)) := by
  induction l with
  | nil => rfl
  | cons c rest ih =>
    by_cases h : isSpaceChar c = true
    · rw [List.takeWhile_cons_of_neg (by rw [h]; exact Bool.false_ne_true),
        List.dropWhile_cons_of_neg (by rw [h]; exact Bool.false_ne_true),
        List.nil_append]
    · have hb := bool_eq_false h
      rw [collapseAux_nonspace false rest hb,
        List.takeWhile_cons_of_pos (by rw [hb]; rfl),
        List.dropWhile_cons_of_pos (by rw [hb]; rfl),
        List.cons_append, ih]

theorem dropWhile_head_false {p : Char → Bool} :
    ∀ {l r : List Char} {c : Char}, l.dropWhile p = c :: r → p c = false := by
  intro l
  induction l with
  | nil => intro r c h; cases h
  | cons d rest ih =>
    intro r c h
    by_cases hd : p d = true
    · rw [List.dropWhile_cons_of_pos hd] at h
      exact ih h
    · rw [List.dropWhile_cons_of_neg hd] at h
      cases h
      exact bool_eq_false hd

theorem dropWhile_eq_self_of_none {p : Char → Bool} {l : List Char}
    (h : ∀ c ∈ l, p c = false) : l.dropWhile p = l := by
  cases l with
  | nil => rfl
  | cons c rest =>
    rw [List.dropWhile_cons_of_neg]
    rw [h c (List.mem_cons_self c rest)]
    exact Bool.false_ne_true

theorem pyStrip_of_no_space {l : List Char}
    (h : ∀ c ∈ l, isSpaceChar c = false) : pyStrip l = l := by
  unfold pyStrip lstrip rstrip
  rw [dropWhile_eq_self_of_none h]
  rw [dropWhile_eq_self_of_none (by intro c hc; exact h c (List.mem_reverse.mp hc))]
  exact List.reverse_reverse l

theorem pyStrip_cons_space {c : Char} (l : List Char) (h : isSpaceChar c = true) :
    pyStrip (c :: l) = pyStrip l := by
  unfold pyStrip lstrip
  rw [List.dropWhile_cons_of_pos h]

theorem rstrip_append (a b : List Char)
    (hb : ∃ c ∈ b, isSpaceChar c = false) :
    rstrip (a ++ b) = a ++ rstrip b := by
  unfold rstrip
  rw [List.reverse_append, List.dropWhile_append]
  have hne : (b.reverse.dropWhile isSpaceChar).isEmpty = false := by
    obtain ⟨c, hc, hcf⟩ := hb
    cases hE : (b.reverse.dropWhile isSpaceChar).isEmpty
    · rfl
    · exfalso
      have hnil : b.reverse.dropWhile isSpaceChar = [] := by
        rwa [List.isEmpty_iff] at hE
      have := (List.dropWhile_eq_nil_iff.mp hnil) c (List.mem_reverse.mpr hc)
      rw [hcf] at this
      cases this
  rw [hne]
  rw [if_neg Bool.false_ne_true]
  rw [List.reverse_append, List.reverse_reverse]

theorem pyStrip_word_sep (w x : List Char) (hw : w ≠ [])
    (hwa : ∀ c ∈ w, isSpaceChar c = false)
    (hx : ∃ e x', x = e :: x' ∧ isSpaceChar e = false) :
    pyStrip (w ++ ' ' :: x) = w ++ ' ' :: pyStrip x := by
  obtain ⟨e, x', hx', he⟩ := hx
  subst hx'
  obtain ⟨c0, w', rfl⟩ : ∃ c0 w', w = c0 :: w' := by
    cases w with
    | nil => exact absurd rfl hw
    | cons c0 w' => exact ⟨c0, w', rfl⟩
  have h0 : isSpaceChar c0 = false := hwa c0 (List.mem_cons_self c0 w')
  unfold pyStrip
  rw [show lstrip ((c0 :: w') ++ ' ' :: e :: x') = (c0 :: w') ++ ' ' :: e :: x' by
    unfold lstrip
    rw [List.cons_append, List.dropWhile_cons_of_neg (by rw [h0]; exact Bool.false_ne_true)]]
  rw [show lstrip (e :: x') = e :: x' by
    unfold lstrip
    rw [List.dropWhile_cons_of_neg (by rw [he]; exact Bool.false_ne_true)]]
  have h1 : rstrip ((c0 :: w') ++ ' ' :: e :: x')
      = (c0 :: w') ++ rstrip (' ' :: e :: x') :=
    rstrip_append _ _ ⟨e, List.mem_cons_of_mem ' ' (List.mem_cons_self e x'), he⟩
  have h2 : rstrip (' ' :: e :: x') = ' ' :: rstrip (e :: x') := by
    have := rstrip_append [' '] (e :: x') ⟨e, List.mem_cons_self e x', he⟩
    rwa [List.singleton_append, List.singleton_append] at this
  rw [h1, h2]

theorem wordsCore_cons_space {c : Char} (l : List Char) (h : isSpaceChar c = true) :
    wordsCore (c :: l) = ([], wordsOf l) := by
  simp only [wordsCore, if_pos h]
  unfold wordsOf
  rfl

theorem wordsCore_cons_nonspace {c : Char} (l : List Char) (h : isSpaceChar c = false) :
    wordsCore (c :: l) = (c :: (wordsCore l).1, (wordsCore l).2) := by
  simp only [wordsCore]
  rw [if_neg (by rw [h]; exact Bool.false_ne_true)]

theorem wordsOf_cons_space {c : Char} (l : List Char) (h : isSpaceChar c = true) :
    wordsOf (c :: l) = wordsOf l := by
  unfold wordsOf
  rw [wordsCore_cons_space l h]
  rfl

theorem wordsOf_dropWhile (l : List Char) :
    wordsOf (l.dropWhile isSpaceChar) = wordsOf l := by
  induction l with
  | nil => rfl
  | cons c rest ih =>
    by_cases h : isSpaceChar c = true
    · rw [List.dropWhile_cons_of_pos h, ih, wordsOf_cons_space rest h]
    · rw [List.dropWhile_cons_of_neg h]

theorem wordsCore_word_append (w r : List Char)
    (hw : ∀ c ∈ w, isSpaceChar c = false)
    (hr : r = [] ∨ ∃ d r', r = d :: r' ∧ isSpaceChar d = true) :
    wordsCore (w ++ r) = (w, wordsOf r) := by
  induction w with
  | nil =>
    rw [List.nil_append]
    rcases hr with rfl | ⟨d, r', rfl, hd⟩
    · rfl
    · rw [wordsCore_cons_space r' hd, wordsOf_cons_space r' hd]
  | cons c w' ih =>
    have hc : isSpaceChar c = false := hw c (List.mem_cons_self c w')
    rw [List.cons_append, wordsCore_cons_nonspace _ hc,
      ih (fun d hd => hw d (List.mem_cons_of_mem c hd))]

theorem wordsOf_word_append (w r : List Char) (hne : w ≠ [])
    (hw : ∀ c ∈ w, isSpaceChar c = false)
    (hr : r = [] ∨ ∃ d r', r = d :: r' ∧ isSpaceChar d = true) :
    wordsOf (w ++ r) = w :: wordsOf r := by
  unfold wordsOf
  rw [wordsCore_word_append w r hw hr]
  rw [if_neg hne]
  rfl

theorem wordsOf_all_nonspace (w : List Char) (hne : w ≠ [])
    (hw : ∀ c ∈ w, isSpaceChar c = false) : wordsOf w = [w] := by
  have := wordsOf_word_append w [] hne hw (Or.inl rfl)
  rwa [List.append_nil] at this

theorem wordsOf_cons_nonspace_ne_nil {e : Char} (l : List Char)
    (he : isSpaceChar e = false) : wordsOf (e :: l) ≠ [] := by
  unfold wordsOf
  rw [wordsCore_cons_nonspace l he]
  rw [if_neg (by exact List.cons_ne_nil e _)]
  exact List.cons_ne_nil _ _

theorem wordsCore_invariants (l : List Char) :
    (∀ c ∈ (wordsCore l).1, isSpaceChar c = false ∧ c ∈ l)
    ∧ (∀ w ∈ (wordsCore l).2, w ≠ [] ∧ ∀ c ∈ w, isSpaceChar c = false ∧ c ∈ l) := by
  induction l with
  | nil => exact ⟨fun c hc => absurd hc (List.not_mem_nil c), fun w hw => absurd hw (List.not_mem_nil w)⟩
  | cons d rest ih =>
    obtain ⟨ih1, ih2⟩ := ih
    by_cases hd : isSpaceChar d = true
    · rw [wordsCore_cons_space rest hd]
      refine ⟨fun c hc => absurd hc (List.not_mem_nil c), ?_⟩
      intro w hw
      unfold wordsOf at hw
      by_cases hcur : (wordsCore rest).1 = []
      · rw [if_pos hcur] at hw
        obtain ⟨hwne, hwall⟩ := ih2 w hw
        exact ⟨hwne, fun c hc =>
          ⟨(hwall c hc).1, List.mem_cons_of_mem d (hwall c hc).2⟩⟩
      · rw [if_neg hcur] at hw
        rcases List.mem_cons.mp hw with rfl | hw'
        · exact ⟨hcur, fun c hc => ⟨(ih1 c hc).1, List.mem_cons_of_mem d (ih1 c hc).2⟩⟩
        · obtain ⟨hwne, hwall⟩ := ih2 w hw'
          exact ⟨hwne, fun c hc =>
            ⟨(hwall c hc).1, List.mem_cons_of_mem d (hwall c hc).2⟩⟩
    · have hdb := bool_eq_false hd
      rw [wordsCore_cons_nonspace rest hdb]
      constructor
      · intro c hc
        rcases List.mem_cons.mp hc with rfl | hc'
        · exact ⟨hdb, List.mem_cons_self c rest⟩
        · exact ⟨(ih1 c hc').1, List.mem_cons_of_mem d (ih1 c hc').2⟩
      · intro w hw
        obtain ⟨hwne, hwall⟩ := ih2 w hw
        exact ⟨hwne, fun c hc =>
          ⟨(hwall c hc).1, List.mem_cons_of_mem d (hwall c hc).2⟩⟩

theorem wordsOf_invariants (l : List Char) :
    ∀ w ∈ wordsOf l, w ≠ [] ∧ ∀ c ∈ w, isSpaceChar c = false ∧ c ∈ l := by
  intro w hw
  unfold wordsOf at hw
  obtain ⟨h1, h2⟩ := wordsCore_invariants l
  by_cases hcur : (wordsCore l).1 = []
  · rw [if_pos hcur] at hw
    exact h2 w hw
  · rw [if_neg hcur] at hw
    rcases List.mem_cons.mp hw with rfl | hw'
    · exact ⟨hcur, h1⟩
    · exact h2 w hw'

theorem pyStrip_word_space {w : List Char}
    (hw : ∀ c ∈ w, isSpaceChar c = false) : pyStrip (w ++ [' ']) = w := by
  cases w with
  | nil => rfl
  | cons c0 w' =>
    have h0 : isSpaceChar c0 = false := hw c0 (List.mem_cons_self c0 w')
    have hrev : ∀ c ∈ (c0 :: w').reverse, isSpaceChar c = false := by
      intro c hc
      exact hw c (List.mem_reverse.mp hc)
    unfold pyStrip
    rw [show lstrip ((c0 :: w') ++ [' ']) = (c0 :: w') ++ [' '] by
      unfold lstrip
      rw [List.cons_append,
        List.dropWhile_cons_of_neg (by rw [h0]; exact Bool.false_ne_true)]]
    unfold rstrip
    rw [List.reverse_append]
    show ((' ' :: (c0 :: w').reverse).dropWhile isSpaceChar).reverse = c0 :: w'
    rw [List.dropWhile_cons_of_pos (by decide), dropWhile_eq_self_of_none hrev,
      List.reverse_reverse]

theorem len_dropWhile_le {α : Type} (p : α → Bool) (l : List α) :
    (l.dropWhile p).length ≤ l.length := by
  induction l with
  | nil => exact Nat.le_refl 0
  | cons a l ih =>
    by_cases h : p a = true
    · rw [List.dropWhile_cons_of_pos h]
      exact le_trans ih (Nat.le_succ _)
    · rw [List.dropWhile_cons_of_neg h]

theorem strip_collapse_words : ∀ (n : Nat) (m : List Char), m.length ≤ n →
    pyStrip (collapseAux false m) = joinSpace (wordsOf m) := by
  intro n
  induction n with
  | zero =>
    intro m hm
    have hnil : m = [] := List.eq_nil_of_length_eq_zero (Nat.le_zero.mp hm)
    subst hnil
    rfl
  | succ n ih =>
    intro m hm
    cases m with
    | nil => rfl
    | cons c rest =>
      have hr : rest.length ≤ n := by
        rw [List.length_cons] at hm
        omega
      by_cases hc : isSpaceChar c = true
      · rw [collapseAux_space_false rest hc, collapseAux_true_drop rest,
          pyStrip_cons_space _ (by decide),
          ih (rest.dropWhile isSpaceChar) (le_trans (len_dropWhile_le _ _) hr),
          wordsOf_dropWhile rest, wordsOf_cons_space rest hc]
      · have hcb := bool_eq_false hc
        have hsplit := collapse_split (c :: rest)
        rw [List.takeWhile_cons_of_pos (by show (!isSpaceChar c) = true; rw [hcb]; rfl),
          List.dropWhile_cons_of_pos (by show (!isSpaceChar c) = true; rw [hcb]; rfl)]
          at hsplit
        set W : List Char := c :: rest.takeWhile (fun d => !isSpaceChar d) with hW
        set R : List Char := rest.dropWhile (fun d => !isSpaceChar d) with hRdef
        have hWne : W ≠ [] := List.cons_ne_nil _ _
        have hWa : ∀ d ∈ W, isSpaceChar d = false := by
          intro d hd
          rcases List.mem_cons.mp hd with rfl | hd'
          · exact hcb
          · have h' := List.mem_takeWhile_imp hd'
            revert h'
            cases isSpaceChar d <;> simp
        have hWR : W ++ R = c :: rest := by
          rw [hW, hRdef, List.cons_append, List.takeWhile_append_dropWhile]
        cases hR : R with
        | nil =>
          rw [hsplit, hR]
          rw [show collapseAux false ([] : List Char) = [] from rfl]
          rw [List.append_nil, pyStrip_of_no_space hWa]
          have hmW : (c :: rest) = W := by
            rw [← hWR, hR, List.append_nil]
          rw [hmW, wordsOf_all_nonspace W hWne hWa]
          rfl
        | cons d r' =>
          have hdrop : rest.dropWhile (fun d => !isSpaceChar d) = d :: r' := by
            rw [← hRdef]
            exact hR
          have hd : isSpaceChar d = true := by
            have h' := dropWhile_head_false hdrop
            revert h'
            cases isSpaceChar d <;> simp
          have hcolR : collapseAux false R = ' ' :: collapseAux false (r'.dropWhile isSpaceChar) := by
            rw [hR, collapseAux_space_false r' hd, collapseAux_true_drop r']
          have hlen : (r'.dropWhile isSpaceChar).length ≤ n := by
            have h1 : R.length ≤ rest.length := by
              rw [hRdef]
              exact len_dropWhile_le _ rest
            have h2 : R.length = r'.length + 1 := by
              rw [hR]
              rfl
            have h3 : (r'.dropWhile isSpaceChar).length ≤ r'.length :=
              len_dropWhile_le _ r'
            omega
          have hwords : wordsOf (c :: rest) = W :: wordsOf (r'.dropWhile isSpaceChar) := by
            rw [← hWR,
              wordsOf_word_append W R hWne hWa (Or.inr ⟨d, r', hR, hd⟩),
              hR, wordsOf_cons_space r' hd, ← wordsOf_dropWhile r']
          rw [hsplit, hcolR, hwords]
          cases hr3 : r'.dropWhile isSpaceChar with
          | nil =>
            rw [show collapseAux false ([] : List Char) = [] from rfl]
            rw [pyStrip_word_space hWa]
            rfl
          | cons e r3 =>
            have he : isSpaceChar e = false := dropWhile_head_false hr3
            have hxne : ∃ e0 x', collapseAux false (e :: r3) = e0 :: x'
                ∧ isSpaceChar e0 = false := by
              rw [collapseAux_nonspace false r3 he]
              exact ⟨e, _, rfl, he⟩
            rw [pyStrip_word_sep W _ hWne hWa hxne]
            rw [ih (e :: r3) (hr3 ▸ hlen)]
            have hwne : wordsOf (e :: r3) ≠ [] :=
              wordsOf_cons_nonspace_ne_nil r3 he
            obtain ⟨v, ws', hws⟩ : ∃ v ws', wordsOf (e :: r3) = v :: ws' := by
              cases hx : wordsOf (e :: r3) with
              | nil => exact absurd hx hwne
              | cons v ws' => exact ⟨v, ws', rfl⟩
            rw [hws]
            rfl

/-- `clean_filename` equals the word-split characterization. -/
theorem clean_filename_characterization (l : List Char) :
    clean_filename l = joinSpace (wordsOf (subRemove l)) :=
  strip_collapse_words (subRemove l).length (subRemove l) (Nat.le_refl _)

theorem notSpace_beq_false {c : Char} (h : isSpaceChar c = false) :
    (c == ' ') = false := by
  cases hb : c == ' '
  · rfl
  · exfalso
    have hc : c = ' ' := eq_of_beq hb
    subst hc
    revert h
    decide

theorem beginsWith_nil (s : List Char) : beginsWith s [] = true := by
  cases s <;> rfl

theorem mem_joinSpace {c : Char} : ∀ {ws : List (List Char)},
    c ∈ joinSpace ws → c = ' ' ∨ ∃ w ∈ ws, c ∈ w := by
  intro ws
  induction ws with
  | nil => intro h; cases h
  | cons w ws ih =>
    intro h
    cases ws with
    | nil =>
      right
      exact ⟨w, List.mem_cons_self w [], h⟩
    | cons v ws' =>
      have h' : c ∈ w ++ ' ' :: joinSpace (v :: ws') := h
      rcases List.mem_append.mp h' with h1 | h1
      · right
        exact ⟨w, List.mem_cons_self w _, h1⟩
      · rcases List.mem_cons.mp h1 with rfl | h2
        · exact Or.inl rfl
        · rcases ih h2 with h3 | ⟨w', hw', hcw'⟩
          · exact Or.inl h3
          · right
            exact ⟨w', List.mem_cons_of_mem w hw', hcw'⟩

theorem wordsOf_joinSpace : ∀ (ws : List (List Char)),
    (∀ w ∈ ws, w ≠ [] ∧ ∀ c ∈ w, isSpaceChar c = false) →
    wordsOf (joinSpace ws) = ws := by
  intro ws
  induction ws with
  | nil => intro _; rfl
  | cons w ws ih =>
    intro hgood
    obtain ⟨hwne, hwa⟩ := hgood w (List.mem_cons_self w ws)
    cases ws with
    | nil => exact wordsOf_all_nonspace w hwne hwa
    | cons v ws' =>
      show wordsOf (w ++ ' ' :: joinSpace (v :: ws')) = w :: v :: ws'
      rw [wordsOf_word_append w (' ' :: joinSpace (v :: ws')) hwne hwa
            (Or.inr ⟨' ', joinSpace (v :: ws'), rfl, by decide⟩),
        wordsOf_cons_space _ (by decide),
        ih (fun u hu => hgood u (List.mem_cons_of_mem w hu))]

theorem noDoubleSpace_word_append : ∀ (w x : List Char),
    (∀ c ∈ w, isSpaceChar c = false) →
    noDoubleSpace (w ++ x) = noDoubleSpace x := by
  intro w
  induction w with
  | nil => intro x _; rfl
  | cons c w' ih =>
    intro x hw
    have hc : (c == ' ') = false :=
      notSpace_beq_false (hw c (List.mem_cons_self c w'))
    cases w' with
    | nil =>
      cases x with
      | nil => rfl
      | cons d x' =>
        show noDoubleSpace (c :: d :: x') = noDoubleSpace (d :: x')
        simp only [noDoubleSpace]
        rw [hc, Bool.false_and, Bool.not_false, Bool.true_and]
    | cons c2 w'' =>
      show noDoubleSpace (c :: c2 :: (w'' ++ x)) = noDoubleSpace x
      simp only [noDoubleSpace]
      rw [hc, Bool.false_and, Bool.not_false, Bool.true_and]
      exact ih x (fun d hd => hw d (List.mem_cons_of_mem c hd))

theorem noDoubleSpace_space_cons {x : List Char}
    (hx : x = [] ∨ ∃ e x', x = e :: x' ∧ isSpaceChar e = false) :
    noDoubleSpace (' ' :: x) = noDoubleSpace x := by
  rcases hx with rfl | ⟨e, x', rfl, he⟩
  · rfl
  · simp only [noDoubleSpace]
    rw [notSpace_beq_false he, Bool.and_false, Bool.not_false, Bool.true_and]

theorem joinSpace_head_nonspace (v : List Char) (ws₂ : List (List Char))
    (hv : v ≠ []) (hva : ∀ c ∈ v, isSpaceChar c = false) :
    ∃ e t, joinSpace (v :: ws₂) = e :: t ∧ isSpaceChar e = false := by
  obtain ⟨e, v', rfl⟩ : ∃ e v', v = e :: v' := by
    cases v with
    | nil => exact absurd rfl hv
    | cons e v' => exact ⟨e, v', rfl⟩
  have he : isSpaceChar e = false := hva e (List.mem_cons_self e v')
  cases ws₂ with
  | nil => exact ⟨e, v', rfl, he⟩
  | cons u ws' =>
    refine ⟨e, v' ++ ' ' :: joinSpace (u :: ws'), ?_, he⟩
    show (e :: v') ++ ' ' :: joinSpace (u :: ws') = _
    rw [List.cons_append]

theorem noDoubleSpace_joinSpace : ∀ (ws : List (List Char)),
    (∀ w ∈ ws, w ≠ [] ∧ ∀ c ∈ w, isSpaceChar c = false) →
    noDoubleSpace (joinSpace ws) = true := by
  intro ws
  induction ws with
  | nil => intro _; rfl
  | cons w ws ih =>
    intro h
    obtain ⟨hwne, hwa⟩ := h w (List.mem_cons_self w ws)
    cases ws with
    | nil =>
      have h2 := noDoubleSpace_word_append w [] hwa
      rw [List.append_nil] at h2
      exact h2.trans rfl
    | cons v ws' =>
      obtain ⟨hv1, hv2⟩ := h v (List.mem_cons_of_mem w (List.mem_cons_self v ws'))
      obtain ⟨e, t, hjoin, he⟩ := joinSpace_head_nonspace v ws' hv1 hv2
      show noDoubleSpace (w ++ ' ' :: joinSpace (v :: ws')) = true
      rw [noDoubleSpace_word_append w _ hwa,
        noDoubleSpace_space_cons (Or.inr ⟨e, t, hjoin, he⟩)]
      exact ih (fun u hu => h u (List.mem_cons_of_mem w hu))

theorem joinSpace_rev_no_space : ∀ (ws : List (List Char)),
    (∀ w ∈ ws, w ≠ [] ∧ ∀ c ∈ w, isSpaceChar c = false) →
    beginsWith (joinSpace ws).reverse [' '] = false := by
  intro ws
  induction ws with
  | nil => intro _; rfl
  | cons w ws ih =>
    intro h
    obtain ⟨hwne, hwa⟩ := h w (List.mem_cons_self w ws)
    cases ws with
    | nil =>
      cases hrev : w.reverse with
      | nil =>
        exfalso
        exact hwne (by simpa using congrArg List.reverse hrev)
      | cons d t =>
        have hd : isSpaceChar d = false := by
          apply hwa
          rw [← List.mem_reverse, hrev]
          exact List.mem_cons_self d t
        show beginsWith (joinSpace [w]).reverse (' ' :: []) = false
        have hjw : (joinSpace [w]).reverse = d :: t := hrev
        rw [hjw]
        simp only [beginsWith]
        rw [notSpace_beq_false hd, Bool.false_and]
    | cons v ws' =>
      obtain ⟨hv1, hv2⟩ := h v (List.mem_cons_of_mem w (List.mem_cons_self v ws'))
      have ihtail := ih (fun u hu => h u (List.mem_cons_of_mem w hu))
      obtain ⟨e, t0, hjoin, _⟩ := joinSpace_head_nonspace v ws' hv1 hv2
      have hne : joinSpace (v :: ws') ≠ [] := by
        rw [hjoin]
        exact List.cons_ne_nil e t0
      cases hrev : (joinSpace (v :: ws')).reverse with
      | nil =>
        exfalso
        exact hne (by simpa using congrArg List.reverse hrev)
      | cons d t =>
        rw [hrev] at ihtail
        simp only [beginsWith] at ihtail
        rw [Bool.and_true] at ihtail
        show beginsWith (w ++ ' ' :: joinSpace (v :: ws')).reverse (' ' :: []) = false
        rw [List.reverse_append, List.reverse_cons, hrev]
        show beginsWith ((d :: t) ++ [' '] ++ w.reverse) (' ' :: []) = false
        rw [List.append_assoc, List.cons_append]
        simp only [beginsWith]
        rw [ihtail, Bool.false_and]

theorem keep_nonspace_wordDash {c : Char} (hk : keepChar c = true)
    (hs : isSpaceChar c = false) : isWordDash c = true := by
  unfold keepChar at hk
  rw [hs, Bool.or_false] at hk
  exact hk

theorem goodOutput_joinSpace (ws : List (List Char))
    (hkeep : ∀ w ∈ ws, w ≠ [] ∧ ∀ c ∈ w, isSpaceChar c = false ∧ keepChar c = true) :
    goodOutput (joinSpace ws) = true := by
  have hgood : ∀ w ∈ ws, w ≠ [] ∧ ∀ c ∈ w, isSpaceChar c = false :=
    fun w hw => ⟨(hkeep w hw).1, fun c hc => ((hkeep w hw).2 c hc).1⟩
  have h1 : (joinSpace ws).all (fun c => isWordDash c || c == ' ') = true := by
    rw [List.all_eq_true]
    intro c hc
    rcases mem_joinSpace hc with rfl | ⟨w, hw, hcw⟩
    · decide
    · have hd := keep_nonspace_wordDash ((hkeep w hw).2 c hcw).2 ((hkeep w hw).2 c hcw).1
      show (isWordDash c || (c == ' ')) = true
      rw [hd, Bool.true_or]
  have h3 : beginsWith (joinSpace ws) [' '] = false := by
    cases ws with
    | nil => rfl
    | cons v ws₂ =>
      obtain ⟨hv1, hv2⟩ := hgood v (List.mem_cons_self v ws₂)
      obtain ⟨e, t, hjoin, he⟩ := joinSpace_head_nonspace v ws₂ hv1 hv2
      rw [hjoin]
      show beginsWith (e :: t) (' ' :: []) = false
      simp only [beginsWith]
      rw [notSpace_beq_false he, Bool.false_and]
  have h4 := joinSpace_rev_no_space ws hgood
  unfold goodOutput
  rw [h1, noDoubleSpace_joinSpace ws hgood, h3, h4]
  rfl

theorem goodOutput_clean (s : List Char) : goodOutput (clean_filename s) = true := by
  rw [clean_filename_characterization s]
  apply goodOutput_joinSpace
  intro w hw
  have hinv := wordsOf_invariants (subRemove s) w hw
  exact ⟨hinv.1, fun c hc =>
    ⟨(hinv.2 c hc).1, List.of_mem_filter (hinv.2 c hc).2⟩⟩

/-- C3 is false as stated: at the input "a" followed by two spaces,
replacing the (trailing) maximal whitespace run by one space would give
"a " but `clean_filename` also strips trailing whitespace (app.py
line 31) and returns "a". -/
theorem clean_filename_vs_claimed_counterexample :
    cleanAsClaimed ("a  ".toList) = "a ".toList
  ∧ clean_filename ("a  ".toList) = "a".toList
  ∧ clean_filename ("a  ".toList) ≠ cleanAsClaimed ("a  ".toList) := by decide

/-- C3 amended: `clean_filename` removes the characters outside
`{alphanumeric, whitespace, hyphen, underscore}`, keeps the kept
characters, replaces every maximal interior whitespace run by a single
space, and deletes leading and trailing whitespace — that is, it joins
the maximal whitespace-separated words of the filtered string with single
spaces. -/
theorem clean_filename_amended (l : List Char) : clean_filename l = cleanSpec l :=
  clean_filename_characterization l

/-- C4: `clean_filename` is idempotent. -/
theorem clean_filename_idempotent (l : List Char) :
    clean_filename (clean_filename l) = clean_filename l := by
  have hinv := wordsOf_invariants (subRemove l)
  have hgood : ∀ w ∈ wordsOf (subRemove l), w ≠ [] ∧ ∀ c ∈ w, isSpaceChar c = false :=
    fun w hw => ⟨(hinv w hw).1, fun c hc => ((hinv w hw).2 c hc).1⟩
  have hsub : subRemove (joinSpace (wordsOf (subRemove l)))
      = joinSpace (wordsOf (subRemove l)) := by
    apply List.filter_eq_self.mpr
    intro c hc
    rcases mem_joinSpace hc with rfl | ⟨w, hw, hcw⟩
    · decide
    · exact List.of_mem_filter ((hinv w hw).2 c hcw).2
  rw [clean_filename_characterization l,
    clean_filename_characterization (joinSpace (wordsOf (subRemove l)))]
  show joinSpace (wordsOf (subRemove (joinSpace (wordsOf (subRemove l))))) = _
  rw [hsub, wordsOf_joinSpace (wordsOf (subRemove l)) hgood]

/-- C9: every output of `clean_filename` consists only of word characters,
hyphens and single interior spaces with no leading or trailing whitespace;
and a title made entirely of stripped punctuation sanitizes to the empty
string, so the staged file is named exactly ".mp3" (app.py lines 28-31 and
116-123). -/
theorem clean_filename_output_shape :
    (∀ s : List Char, goodOutput (clean_filename s) = true)
  ∧ clean_filename (":/?\"".toList) = []
  ∧ download_youtube_audio
      ⟨.ok ⟨some (":/?\"".toList)⟩, .ok (), fun _ => true⟩ ("downloads".toList)
      = (true, "Successfully converted: ".toList, some ("downloads/.mp3".toList))
  ∧ fileName ("downloads/.mp3".toList) = ".mp3".toList :=
  ⟨goodOutput_clean, by decide, by decide, by decide⟩


end YtMp3
